import Mathlib

/-!
# Verification of the `river` analytics core

Shallow embedding of the analytics core of the `river` journaling tool
(Go sources) together with theorems checking the natural-language
specification against it.

Modelling conventions:

* A calendar date is the integer number of days since 1970-01-01
  (`1970-01-01` itself is day `0`, a Thursday).  Go's `time.Time` values in
  this code are always midnights produced by `time.Parse("2006-01-02", ·)`,
  and the only operations used on them are `AddDate(0,0,±1)`,
  `Sub(·).Hours()/24`, `Weekday()`, `Before` and `Format("2006-01-02")`;
  all of these are faithfully represented by integer day arithmetic.
* Durations are integer nanoseconds, like Go's `time.Duration`
  (`time.Second = 10^9`, `time.Minute = 60·10^9`).
* Text is a `List Char`; Go's `strings.Index`, `strings.Fields`,
  `strings.Split(·,"\n")`, `strings.TrimSpace`, `strings.HasPrefix` and
  `strings.HasSuffix` are embedded below.  The note texts relevant here are
  ASCII, where Go's byte indices and rune lists agree.
* Go maps keyed by the `"2006-01-02"` rendering of a date are embedded as
  association lists keyed by the date itself (the rendering is injective on
  dates).  Where the Go code iterates a map in unspecified order and then
  sorts the result by a key that is unique per entry, the sorted output is
  independent of the iteration order, so the association-list order is a
  faithful representative.
-/

/-- Weekday of a day number, with `0 = Sunday`, …, `6 = Saturday`
(day 0 = 1970-01-01 is a Thursday = `4`), matching Go's `time.Weekday`. -/
def weekday (d : ℤ) : ℤ := (d + 4) % 7

/-- `days_from_civil`: day number of the calendar date `y-m-d`
(proleptic Gregorian, Howard Hinnant's algorithm, as used by Go's
`time` package for the dates appearing here).  Lets concrete scenario
dates such as `2024-01-07` be written down and computed with. -/
def civil (y m d : ℤ) : ℤ :=
  let y' := if m ≤ 2 then y - 1 else y
  let era := (if 0 ≤ y' then y' else y' - 399) / 400
  let yoe := y' - era * 400
  let doy := (153 * (m + (if 2 < m then -3 else 9)) + 2) / 5 + d - 1
  let doe := yoe * 365 + yoe / 4 - yoe / 100 + doy
  era * 146097 + doe - 719468

/-! ## Text primitives (Go `strings` / `unicode` as used by this code) -/

/-- Go's `unicode.IsSpace` on the characters that can occur in Latin-1 text
(tab, newline, vertical tab, form feed, carriage return, space, NEL,
no-break space); the higher-plane Unicode space classes never occur in the
texts considered here. -/
def isSpace (c : Char) : Bool :=
  c == ' ' || c == '\t' || c == '\n' || c == '\x0b' || c == '\x0c' || c == '\r' ||
  c == '\x85' || c == '\xa0'

/-- Accumulator pass of `strings.Fields`: `acc` is the reversed current
word. -/
def fieldsGo : List Char → List Char → List (List Char)
  | [], acc => if acc.isEmpty then [] else [acc.reverse]
  | c :: t, acc =>
    if isSpace c then
      if acc.isEmpty then fieldsGo t [] else acc.reverse :: fieldsGo t []
    else
      fieldsGo t (c :: acc)

/-- `strings.Fields`: the maximal runs of non-whitespace characters. -/
def fields (s : List Char) : List (List Char) := fieldsGo s []

/-- `strings.Split(s, "\n")`. -/
def splitLines : List Char → List (List Char)
  | [] => [[]]
  | c :: t =>
    if c = '\n' then [] :: splitLines t
    else
      match splitLines t with
      | [] => [[c]]
      | l :: rest => (c :: l) :: rest

/-- `strings.Join(lines, "\n")`. -/
def joinLines (lines : List (List Char)) : List Char := List.intercalate ['\n'] lines

/-- `strings.TrimSpace`. -/
def trimSpace (s : List Char) : List Char :=
  ((s.dropWhile isSpace).reverse.dropWhile isSpace).reverse

/-- `strings.TrimPrefix(s, p)`: drop `p` if it is a prefix, else `s`. -/
def trimPrefixStr (p s : List Char) : List Char :=
  if p.isPrefixOf s then s.drop p.length else s

/-- `strings.TrimSuffix(s, p)`: drop `p` if it is a suffix, else `s`. -/
def trimSuffixStr (p s : List Char) : List Char :=
  if p.isSuffixOf s then s.take (s.length - p.length) else s

/-- The comment-open marker `"<!--"`. -/
def openMark : List Char := ['<', '!', '-', '-']

/-- The comment-close marker `"-->"`. -/
def closeMark : List Char := ['-', '-', '>']

/-- The `".md"` filename extension. -/
def mdExt : List Char := ['.', 'm', 'd']

/-- `strings.Index(s, pat)`: position of the first occurrence of `pat` in
`s`, `none` when there is none (Go returns `-1`). -/
def strIndex : List Char → List Char → Option ℕ
  | [], pat => if pat.isPrefixOf ([] : List Char) then some 0 else none
  | c :: t, pat =>
    if pat.isPrefixOf (c :: t) then some 0
    else (strIndex t pat).map (· + 1)

theorem strIndex_isPrefixOf {s pat : List Char} {i : ℕ} (h : strIndex s pat = some i) :
    pat <+: s.drop i := by
  induction s generalizing i with
  | nil =>
    simp only [strIndex] at h
    split at h
    · simp_all [List.isPrefixOf_iff_prefix]
    · exact absurd h (by simp)
  | cons c t ih =>
    simp only [strIndex] at h
    split at h
    · obtain rfl : i = 0 := by simpa using h.symm
      simpa [List.isPrefixOf_iff_prefix] using ‹pat.isPrefixOf (c :: t) = true›
    · obtain ⟨j, hj, rfl⟩ := Option.map_eq_some'.mp h
      simpa using ih hj

theorem strIndex_le {s pat : List Char} {i : ℕ} (h : strIndex s pat = some i) :
    i ≤ s.length := by
  induction s generalizing i with
  | nil =>
    simp only [strIndex] at h
    split at h
    · simpa using (by simpa using h.symm : i = 0).le
    · exact absurd h (by simp)
  | cons c t ih =>
    simp only [strIndex] at h
    split at h
    · obtain rfl : i = 0 := by simpa using h.symm
      simp
    · obtain ⟨j, hj, rfl⟩ := Option.map_eq_some'.mp h
      have := ih hj
      simp only [List.length_cons]
      omega

theorem strIndex_le_length {s pat : List Char} {i : ℕ} (h : strIndex s pat = some i) :
    i + pat.length ≤ s.length := by
  have hlen := (strIndex_isPrefixOf h).length_le
  have h2 := strIndex_le h
  simp only [List.length_drop] at hlen
  omega

namespace StatsUI

/-! ## `internal/statsui/stats.go` -/

/-- `removeHTMLComments(text)`:

```go
for {
    start := strings.Index(text, "<!--")
    if start == -1 { break }
    end := strings.Index(text[start:], "-->")
    if end == -1 { break }
    text = text[:start] + text[start+end+3:]
}
return text
```

The Go loop is a priori unbounded, but every removal deletes at least the
closed comment's three closer bytes, strictly shrinking the text, so the
loop runs at most `length` more times; the embedding carries that bound as
explicit fuel, and `removeHTMLCommentsAux_stable` below proves the result
is the same for every sufficient fuel — which is exactly the termination
argument for the Go loop. -/
def removeHTMLCommentsAux : ℕ → List Char → List Char
  | 0, s => s
  | fuel + 1, s =>
    match strIndex s openMark with
    | none => s
    | some st =>
      match strIndex (s.drop st) closeMark with
      | none => s
      | some en => removeHTMLCommentsAux fuel (s.take st ++ s.drop (st + en + 3))

/-- `removeHTMLComments(text)` with its canonical (sufficient) fuel. -/
def removeHTMLComments (s : List Char) : List Char :=
  removeHTMLCommentsAux (s.length + 1) s

theorem removeHTMLCommentsAux_nil (f : ℕ) : removeHTMLCommentsAux f [] = [] := by
  cases f <;> rfl

theorem removeHTMLCommentsAux_stable (n : ℕ) :
    ∀ (s : List Char) (f g : ℕ), s.length ≤ n → n ≤ f → n ≤ g →
      removeHTMLCommentsAux f s = removeHTMLCommentsAux g s := by
  induction n with
  | zero =>
    intro s f g hlen _ _
    have : s = [] := List.length_eq_zero.mp (Nat.le_zero.mp hlen)
    subst this
    rw [removeHTMLCommentsAux_nil, removeHTMLCommentsAux_nil]
  | succ n ih =>
    intro s f g hlen hf hg
    match f, g with
    | f + 1, g + 1 =>
      cases h1 : strIndex s openMark with
      | none => simp only [removeHTMLCommentsAux, h1]
      | some st =>
        cases h2 : strIndex (s.drop st) closeMark with
        | none => simp only [removeHTMLCommentsAux, h1, h2]
        | some en =>
          simp only [removeHTMLCommentsAux, h1, h2]
          have hst := strIndex_le_length h1
          have hen := strIndex_le_length h2
          simp only [openMark, closeMark, List.length_cons, List.length_nil,
            List.length_drop] at hst hen
          apply ih
          · simp only [List.length_append, List.length_take, List.length_drop]
            omega
          · omega
          · omega

/-- The word count `collectStats` derives from a note's text:
`len(strings.Fields(removeHTMLComments(text)))`. -/
def filteredWordCount (text : List Char) : ℕ :=
  (fields (removeHTMLComments text)).length

/-- One element of the `notes` slice built by `collectStats`
(`noteData{date, words}`). -/
structure NoteData where
  date : ℤ
  words : ℕ
  deriving Repr, DecidableEq

/-- The backward-walking loop of `calculateCurrentStreak`:

```go
for {
    key := date.Format("2006-01-02")
    if _, exists := dateMap[key]; !exists { break }
    streak++
    date = date.AddDate(0, 0, -1)
}
```

The Go loop is unbounded; it terminates because the streak it counts is
bounded by the number of distinct dates in `dateMap`.  Here it is embedded
with explicit fuel; every caller passes fuel `dates.length + 1`, which is
proved below (`backCount_lt_fuel`) to be more than the loop can consume,
so the fuelled function computes exactly the Go loop's value. -/
def backCount (dates : List ℤ) : ℤ → ℕ → ℕ
  | _, 0 => 0
  | d, fuel + 1 => if d ∈ dates then backCount dates (d - 1) fuel + 1 else 0

/-- `calculateCurrentStreak(dateMap)`: anchor on today if present, else on
yesterday if present, else return 0; then count backwards.  `dates` is the
key set of `dateMap`; `today` is `time.Now()`'s date. -/
def calculateCurrentStreak (dates : List ℤ) (today : ℤ) : ℕ :=
  if today ∈ dates then backCount dates today (dates.length + 1)
  else if today - 1 ∈ dates then backCount dates (today - 1) (dates.length + 1)
  else 0

/-- The scanning loop of `calculateLongestStreak`: `prev` is
`notes[i-1].date`, `current`/`longest` the two counters; the test
`notes[i].date.Sub(notes[i-1].date).Hours()/24 == 1` is day difference 1. -/
def longestAux : ℤ → ℕ → ℕ → List ℤ → ℕ
  | _, _, longest, [] => longest
  | prev, current, longest, d :: rest =>
      if d - prev = 1 then
        longestAux d (current + 1) (max longest (current + 1)) rest
      else
        longestAux d 1 longest rest

/-- `calculateLongestStreak(notes)`: 0 for an empty slice, else a single
left-to-right scan with running `current`/`longest` counters. -/
def calculateLongestStreak (notes : List NoteData) : ℕ :=
  match notes.map NoteData.date with
  | [] => 0
  | d :: rest => longestAux d 1 1 rest

/-- The week-start loop of `calculateWeeklyData`:

```go
weekStart := note.date
for weekStart.Weekday() != time.Sunday { weekStart = weekStart.AddDate(0, 0, -1) }
```

Again the loop is a priori unbounded; it runs at most 6 times because
weekdays cycle with period 7, so fuel 7 reproduces it exactly. -/
def weekStartAux : ℕ → ℤ → ℤ
  | 0, d => d
  | fuel + 1, d => if weekday d = 0 then d else weekStartAux fuel (d - 1)

/-- Week-start (most recent Sunday on or before) of a date. -/
def weekStart (d : ℤ) : ℤ := weekStartAux 7 d

end StatsUI

/-! ## `sort.Slice` on slices whose sort key is unique per element

The Go code sorts slices with `sort.Slice(xs, func(i,j) { return key(xs[i]).Before(key(xs[j])) })`.
`sort.Slice` is not stable, but every such call in this code sorts by a key
that is distinct across elements (dates of distinct files, week-start keys
of a map), so the ascending result is unique; insertion sort is a faithful
representative. -/

/-- Insert `x` into a list ascending by `key`. -/
def insertOn (key : α → ℤ) (x : α) : List α → List α
  | [] => [x]
  | y :: t => if key x < key y then x :: y :: t else y :: insertOn key x t

/-- Sort ascending by `key`. -/
def sortOn (key : α → ℤ) : List α → List α
  | [] => []
  | x :: t => insertOn key x (sortOn key t)

theorem insertOn_perm (key : α → ℤ) (x : α) (l : List α) :
    List.Perm (insertOn key x l) (x :: l) := by
  induction l with
  | nil => exact List.Perm.refl _
  | cons y t ih =>
    simp only [insertOn]
    split
    · exact List.Perm.refl _
    · exact (ih.cons y).trans (List.Perm.swap x y t)

theorem sortOn_perm (key : α → ℤ) (l : List α) : List.Perm (sortOn key l) l := by
  induction l with
  | nil => exact List.Perm.refl _
  | cons x t ih => exact (insertOn_perm key x (sortOn key t)).trans (ih.cons x)

theorem insertOn_pairwise (key : α → ℤ) (x : α) (l : List α)
    (h : l.Pairwise (fun a b => key a ≤ key b)) :
    (insertOn key x l).Pairwise (fun a b => key a ≤ key b) := by
  induction l with
  | nil => simp [insertOn]
  | cons y t ih =>
    simp only [insertOn]
    split
    · refine List.Pairwise.cons ?_ h
      intro b hb
      rcases List.mem_cons.mp hb with rfl | hb
      · omega
      · have := (List.pairwise_cons.mp h).1 b hb
        omega
    · rw [List.pairwise_cons] at h
      refine List.Pairwise.cons ?_ (ih h.2)
      intro b hb
      have hmem := (insertOn_perm key x t).mem_iff.mp hb
      rcases List.mem_cons.mp hmem with rfl | hb'
      · omega
      · exact h.1 b hb'

theorem sortOn_pairwise (key : α → ℤ) (l : List α) :
    (sortOn key l).Pairwise (fun a b => key a ≤ key b) := by
  induction l with
  | nil => simp [sortOn]
  | cons x t ih => exact insertOn_pairwise key x (sortOn key t) ih

/-- When the sort key is distinct across elements, the sorted list is
strictly ascending on keys. -/
theorem sortOn_pairwise_lt (key : α → ℤ) (l : List α)
    (h : (l.map key).Nodup) :
    (sortOn key l).Pairwise (fun a b => key a < key b) := by
  have hperm : List.Perm ((sortOn key l).map key) (l.map key) := (sortOn_perm key l).map key
  have hnodup : ((sortOn key l).map key).Nodup := hperm.nodup_iff.mpr h
  have hle := sortOn_pairwise key l
  have hne : (sortOn key l).Pairwise (fun a b => key a ≠ key b) :=
    (List.pairwise_map.mp hnodup)
  exact (hle.and hne).imp (fun {a b} hab => lt_of_le_of_ne hab.1 hab.2)

/-! ## File corpus model -/

/-- Value of one decimal digit character. -/
def digitVal (c : Char) : Option ℤ :=
  if '0' ≤ c ∧ c ≤ '9' then some ((c.toNat : ℤ) - 48) else none

/-- Days in a month of the proleptic Gregorian calendar. -/
def daysInMonth (y m : ℤ) : ℤ :=
  if m = 2 then (if y % 4 = 0 ∧ (y % 100 ≠ 0 ∨ y % 400 = 0) then 29 else 28)
  else if m = 4 ∨ m = 6 ∨ m = 9 ∨ m = 11 then 30
  else 31

/-- `time.Parse("2006-01-02", s)`: accepts exactly `YYYY-MM-DD` with a
valid calendar month and day, returning the parsed date's day number;
everything else fails. -/
def parseDate (s : List Char) : Option ℤ :=
  match s with
  | [y1, y2, y3, y4, h1, m1, m2, h2, d1, d2] =>
    if h1 = '-' ∧ h2 = '-' then
      match digitVal y1, digitVal y2, digitVal y3, digitVal y4,
            digitVal m1, digitVal m2, digitVal d1, digitVal d2 with
      | some a, some b, some c, some d, some e, some f, some g, some h =>
        let y := 1000 * a + 100 * b + 10 * c + d
        let m := 10 * e + f
        let dd := 10 * g + h
        if 1 ≤ m ∧ m ≤ 12 ∧ 1 ≤ dd ∧ dd ≤ daysInMonth y m then some (civil y m dd)
        else none
      | _, _, _, _, _, _, _, _ => none
    else none
  | _ => none

/-- Outcome of reading and TOML-decoding a `.stats-<date>.toml` sidecar:
the file is absent (or unreadable), present but not valid TOML, or valid
with the given `typing_seconds` value. -/
inductive SidecarRead where
  | absent
  | malformed
  | ok (typingSeconds : ℤ)
  deriving Repr, DecidableEq

/-- One file of the notes directory as the aggregation pass sees it:
its base name, the outcome of `os.ReadFile` on it (`none` = read error),
and the outcome of reading the same date's sidecar. -/
structure FileEntry where
  name : List Char
  content : Option (List Char)
  sidecar : SidecarRead
  deriving DecidableEq

namespace StatsUI

/-- The per-file loop of `collectStats`: skip dot-files, skip names whose
`.md`-stripped base is not a valid date, skip unreadable files, and
otherwise emit `noteData{date, words}` with the comment-filtered word
count.  (This variant reads no sidecars.) -/
def collectLoop : List FileEntry → List NoteData
  | [] => []
  | e :: rest =>
    if (['.'] : List Char).isPrefixOf e.name then collectLoop rest
    else
      match parseDate (trimSuffixStr mdExt e.name) with
      | none => collectLoop rest
      | some d =>
        match e.content with
        | none => collectLoop rest
        | some text => ⟨d, filteredWordCount text⟩ :: collectLoop rest

/-- The `notes` slice of `collectStats`: the loop's output sorted
ascending by date.  The date keys of `dateMap` are the same dates. -/
def collectNotes (entries : List FileEntry) : List NoteData :=
  sortOn NoteData.date (collectLoop entries)

/-- One element of the `weekData` slice (`startDate`, `words`, `days`,
`avg`); Go's `float64` average is abstracted as an exact rational, which
none of the claims depend on. -/
structure WeekData where
  startDate : ℤ
  words : ℕ
  days : ℕ
  avg : ℚ
  deriving Repr, DecidableEq

/-- One `weekMap` insertion step of `calculateWeeklyData`: update the
bucket keyed `k` in place, or create `weekData{startDate: k, words: w, days: 1}`. -/
def addToWeek : List WeekData → ℤ → ℕ → List WeekData
  | [], k, w => [⟨k, w, 1, 0⟩]
  | b :: rest, k, w =>
    if b.startDate = k then { b with words := b.words + w, days := b.days + 1 } :: rest
    else b :: addToWeek rest k w

/-- The `weekMap` of `calculateWeeklyData` after inserting every note, as
an association list keyed by `weekStart` of the note's date. -/
def buildWeekMap (notes : List NoteData) : List WeekData :=
  notes.foldl (fun acc n => addToWeek acc (weekStart n.date) n.words) []

/-- The average computed during map-to-slice conversion:
`w.avg = float64(w.words) / float64(w.days)`. -/
def setAvg (w : WeekData) : WeekData := { w with avg := (w.words : ℚ) / (w.days : ℚ) }

/-- The `weeks` slice of `calculateWeeklyData` after conversion and
sorting, before the last-8 truncation. -/
def weeklyFull (notes : List NoteData) : List WeekData :=
  sortOn WeekData.startDate ((buildWeekMap notes).map setAvg)

/-- `calculateWeeklyData(notes)`: bucket by week start, average, sort
ascending by start date, and keep only the last 8 weeks
(`weeks = weeks[len(weeks)-8:]`). -/
def calculateWeeklyData (notes : List NoteData) : List WeekData :=
  let weeks := weeklyFull notes
  if 8 < weeks.length then weeks.drop (weeks.length - 8) else weeks

end StatsUI

namespace Root

/-! ## `stats.go` (the `river` binary's own stats command)

This file contains its own copies of the streak loops; they are textually
identical to the ones in `internal/statsui/stats.go` (embedded above as
`StatsUI.backCount` / `StatsUI.longestAux`), so the embeddings are shared
rather than duplicated. -/

/-- `dailyStat{date, words, typingTime}` of `stats.go`; `typingTime` in
nanoseconds like Go's `time.Duration`. -/
structure DailyStat where
  date : ℤ
  words : ℕ
  typingTime : ℤ
  deriving Repr, DecidableEq

/-- `time.Second` in nanoseconds. -/
def nsPerSecond : ℤ := 1000000000

/-- `countWords(content)`: `len(strings.Fields(content))` — note: no
comment filtering in this variant. -/
def countWords (content : List Char) : ℕ := (fields content).length

/-- The sidecar branch of `collectAllStats`:

```go
typingTime := time.Duration(0)
if data, err := os.ReadFile(statsFile); err == nil {
    var s stats
    if err := toml.Unmarshal(data, &s); err == nil {
        typingTime = time.Duration(s.TypingSeconds) * time.Second
    }
}
```
-/
def sidecarDuration : SidecarRead → ℤ
  | .absent => 0
  | .malformed => 0
  | .ok secs => secs * nsPerSecond

/-- The per-file loop of `collectAllStats`: parse the `.md`-stripped base
name as a date (skip on failure), read the file (skip on failure), count
words unfiltered, and take the typing time from the sidecar branch. -/
def collectLoop : List FileEntry → List DailyStat
  | [] => []
  | e :: rest =>
    match parseDate (trimSuffixStr mdExt e.name) with
    | none => collectLoop rest
    | some d =>
      match e.content with
      | none => collectLoop rest
      | some text => ⟨d, countWords text, sidecarDuration e.sidecar⟩ :: collectLoop rest

/-- The `dailyStats` slice of `collectAllStats`: the loop's output sorted
ascending by date. -/
def collectDailyStats (entries : List FileEntry) : List DailyStat :=
  sortOn DailyStat.date (collectLoop entries)

/-- `calculateCurrentStreak(dailyStats)` of `stats.go`: 0 for an empty
slice; 0 when today has no entry (`// If no entry today, streak is already
broken`); otherwise count backwards from today.  Unlike the `statsui`
variant there is no yesterday anchor. -/
def calculateCurrentStreak (dates : List ℤ) (today : ℤ) : ℕ :=
  if dates = [] then 0
  else if today ∈ dates then StatsUI.backCount dates today (dates.length + 1)
  else 0

/-- `calculateLongestStreak(dailyStats)` of `stats.go`: identical scan to
the `statsui` variant (`currDate.Sub(prevDate).Hours() == 24` is day
difference 1). -/
def calculateLongestStreak (dailyStats : List DailyStat) : ℕ :=
  match dailyStats.map DailyStat.date with
  | [] => 0
  | d :: rest => StatsUI.longestAux d 1 1 rest

end Root

namespace Editor

/-! ## The editor (`internal/editor`): activity clock and live word count -/

/-- `time.Second` in nanoseconds. -/
def nsPerSecond : ℤ := 1000000000

/-- `time.Minute` in nanoseconds: the 60-second idle cutoff. -/
def nsPerMinute : ℤ := 60 * nsPerSecond

/-- The activity-relevant fields of the editor `Model`: `lastActivity` is
the wall-clock time of the last keystroke, `typingTime` the accumulated
typing duration, both in nanoseconds. -/
structure ActivityState where
  lastActivity : ℤ
  typingTime : ℤ
  deriving Repr, DecidableEq

/-- The `tickMsg` branch of `Model.Update`, at wall-clock time `now`:

```go
case tickMsg:
    if time.Since(m.lastActivity) < time.Minute {
        m.typingTime += time.Second
    }
```
-/
def tickUpdate (now : ℤ) (m : ActivityState) : ActivityState :=
  if now - m.lastActivity < nsPerMinute then
    { m with typingTime := m.typingTime + nsPerSecond }
  else m

/-- The `tea.KeyMsg` branch of `Model.Update`: `m.lastActivity = time.Now()`. -/
def keyUpdate (now : ℤ) (m : ActivityState) : ActivityState :=
  { m with lastActivity := now }

/-- `loadStats(statsFile)` as observed by `NewInitialModel`, which ignores
the returned error (`existingTime, _ := loadStats(statsFile)`): a missing
file yields `(0, nil)`, an unreadable or unparsable one `(0, err)`, so the
session always starts and seeds from 0 unless the sidecar decodes. -/
def loadStatsValue : SidecarRead → ℤ
  | .absent => 0
  | .malformed => 0
  | .ok secs => secs * nsPerSecond

/-- A line is skipped by the editor's live word count (and harvested as
ghost text by `processGhostText`) iff its trimmed form both starts with
`"<!--"` and ends with `"-->"`. -/
def isGhostLine (line : List Char) : Bool :=
  openMark.isPrefixOf (trimSpace line) && closeMark.isSuffixOf (trimSpace line)

/-- `countWords(content)` of the editor (`part_002`): split into lines,
skip ghost lines, and add `len(strings.Fields(line))` for the rest. -/
def countWords (content : List Char) : ℕ :=
  (splitLines content).foldl
    (fun acc line => if isGhostLine line then acc else acc + (fields line).length) 0

/-- The per-line body of `processGhostText`, right-folded over the lines:
ghost lines contribute their trimmed inner text (when nonempty) to the
ghost list, other lines are kept. -/
def processGhostLines : List (List Char) → List (List Char) × List (List Char)
  | [] => ([], [])
  | line :: rest =>
    let (actual, ghost) := processGhostLines rest
    if isGhostLine line then
      let text := trimSpace (trimSuffixStr closeMark (trimPrefixStr openMark (trimSpace line)))
      (actual, if text.isEmpty then ghost else text :: ghost)
    else (line :: actual, ghost)

/-- `processGhostText(content)`: separates the prose (re-joined with
newlines) from the list of ghost strings. -/
def processGhostText (content : List Char) : List Char × List (List Char) :=
  let (actual, ghost) := processGhostLines (splitLines content)
  (joinLines actual, ghost)

end Editor

/-! ## Streak runs

`IsRun dates d n` renders the spec's description of the backward walk
(§4.4): anchored at `d` and walking backward one day at a time, the first
`n` consecutive days are all present and the walk stops at the first gap. -/

/-- `d, d-1, …, d-(n-1)` are all present and `d-n` is absent. -/
def IsRun (dates : List ℤ) (d : ℤ) (n : ℕ) : Prop :=
  (∀ j : ℕ, j < n → d - (j : ℤ) ∈ dates) ∧ d - (n : ℤ) ∉ dates

theorem IsRun.unique {dates : List ℤ} {d : ℤ} {n m : ℕ}
    (hn : IsRun dates d n) (hm : IsRun dates d m) : n = m := by
  by_contra hne
  rcases Nat.lt_or_ge n m with h | h
  · exact hn.2 (hm.1 n h)
  · exact hm.2 (hn.1 m (lt_of_le_of_ne h (Ne.symm hne)))

namespace StatsUI

theorem backCount_mem (dates : List ℤ) :
    ∀ (fuel : ℕ) (d : ℤ) (j : ℕ), j < backCount dates d fuel → d - (j : ℤ) ∈ dates := by
  intro fuel
  induction fuel with
  | zero => intro d j h; simp [backCount] at h
  | succ f ih =>
    intro d j h
    simp only [backCount] at h
    split at h
    · cases j with
      | zero => simpa using ‹d ∈ dates›
      | succ i =>
        have hi : i < backCount dates (d - 1) f := by omega
        have := ih (d - 1) i hi
        have heq : d - ((i : ℤ) + 1) = d - 1 - (i : ℤ) := by ring
        push_cast
        rw [heq]
        exact this
    · omega

theorem backCount_le_fuel (dates : List ℤ) :
    ∀ (fuel : ℕ) (d : ℤ), backCount dates d fuel ≤ fuel := by
  intro fuel
  induction fuel with
  | zero => intro d; simp [backCount]
  | succ f ih =>
    intro d
    simp only [backCount]
    split
    · have := ih (d - 1); omega
    · omega

theorem backCount_not_mem (dates : List ℤ) :
    ∀ (fuel : ℕ) (d : ℤ), backCount dates d fuel < fuel →
      d - (backCount dates d fuel : ℤ) ∉ dates := by
  intro fuel
  induction fuel with
  | zero => intro d h; omega
  | succ f ih =>
    intro d h
    by_cases hc : d ∈ dates
    · simp only [backCount, if_pos hc] at h ⊢
      have hlt : backCount dates (d - 1) f < f := by omega
      have := ih (d - 1) hlt
      intro hmem
      apply this
      have heq : d - 1 - (backCount dates (d - 1) f : ℤ)
          = d - ((backCount dates (d - 1) f + 1 : ℕ) : ℤ) := by push_cast; ring
      rw [heq]
      exact hmem
    · simpa [backCount, if_neg hc] using hc

theorem backCount_le_card (dates : List ℤ) (fuel : ℕ) (d : ℤ) :
    backCount dates d fuel ≤ dates.toFinset.card := by
  classical
  set n := backCount dates d fuel with hn
  have hsub : ∀ j ∈ Finset.range n, d - (j : ℤ) ∈ dates.toFinset := by
    intro j hj
    rw [List.mem_toFinset]
    exact backCount_mem dates fuel d j (Finset.mem_range.mp hj)
  have hinj : Set.InjOn (fun j : ℕ => d - (j : ℤ)) (Finset.range n) := by
    intro a _ b _ hab
    simp only at hab
    omega
  have := Finset.card_le_card_of_injOn (fun j : ℕ => d - (j : ℤ)) hsub hinj
  simpa using this

/-- With the canonical fuel `dates.length + 1`, the fuelled loop computes
exactly the spec's backward run: fuel never runs out. -/
theorem backCount_isRun (dates : List ℤ) (d : ℤ) :
    IsRun dates d (backCount dates d (dates.length + 1)) := by
  have hcard := backCount_le_card dates (dates.length + 1) d
  have hlen := List.toFinset_card_le dates
  have hlt : backCount dates d (dates.length + 1) < dates.length + 1 := by omega
  exact ⟨fun j hj => backCount_mem dates _ d j hj, backCount_not_mem dates _ d hlt⟩

theorem backCount_pos (dates : List ℤ) (d : ℤ) (h : d ∈ dates) :
    1 ≤ backCount dates d (dates.length + 1) := by
  simp only [backCount, if_pos h]
  omega

theorem le_longestAux :
    ∀ (l : List ℤ) (prev : ℤ) (cur lg : ℕ), lg ≤ longestAux prev cur lg l := by
  intro l
  induction l with
  | nil => intro prev cur lg; simp [longestAux]
  | cons e l' ih =>
    intro prev cur lg
    simp only [longestAux]
    split
    · have := ih e (cur + 1) (max lg (cur + 1))
      omega
    · exact ih e 1 lg

/-- No integer strictly between two list-adjacent elements of a strictly
ascending list is a member of the list. -/
theorem not_mem_between {pre l' : List ℤ} {prev e x : ℤ}
    (hpw : (pre ++ prev :: e :: l').Pairwise (· < ·))
    (h1 : prev < x) (h2 : x < e) : x ∉ pre ++ prev :: e :: l' := by
  rw [List.pairwise_append] at hpw
  obtain ⟨_, hcons, hrel⟩ := hpw
  rw [List.pairwise_cons] at hcons
  obtain ⟨hprev, hcons2⟩ := hcons
  rw [List.pairwise_cons] at hcons2
  obtain ⟨he, _⟩ := hcons2
  intro hx
  rcases List.mem_append.mp hx with hx | hx
  · have := hrel x hx prev (by simp)
    omega
  · rcases List.mem_cons.mp hx with rfl | hx
    · omega
    · rcases List.mem_cons.mp hx with rfl | hx
      · omega
      · have := he x hx
        omega

/-- Main invariant of the `calculateLongestStreak` scan: if the running
counter `cur` is exactly the backward run ending at the last consumed
element `prev`, and `lg` dominates it, then the scan's result dominates
the backward run ending at any element still to be accounted for. -/
theorem longestAux_ge_run (dates : List ℤ) :
    ∀ (l pre : List ℤ) (prev : ℤ) (cur lg : ℕ) (d : ℤ) (k : ℕ),
      dates = pre ++ prev :: l →
      dates.Pairwise (· < ·) →
      IsRun dates prev cur →
      cur ≤ lg →
      d ∈ prev :: l →
      IsRun dates d k →
      k ≤ longestAux prev cur lg l := by
  intro l
  induction l with
  | nil =>
    intro pre prev cur lg d k hdec _ hrun hcl hd hdrun
    have hd' : d = prev := by simpa using hd
    subst hd'
    have : k = cur := hdrun.unique hrun
    simpa [longestAux, this] using hcl
  | cons e l' ih =>
    intro pre prev cur lg d k hdec hpw hrun hcl hd hdrun
    have hprev_mem : prev ∈ dates := by rw [hdec]; simp
    have he_mem : e ∈ dates := by rw [hdec]; simp
    have hcur_pos : 1 ≤ cur := by
      by_contra h0
      have hc0 : cur = 0 := by omega
      rw [hc0] at hrun
      exact hrun.2 (by simpa using hprev_mem)
    have hpw' : (pre ++ prev :: e :: l').Pairwise (· < ·) := hdec ▸ hpw
    have hprev_lt_e : prev < e :=
      (List.pairwise_cons.mp (List.pairwise_append.mp hpw').2.1).1 e (by simp)
    rcases List.mem_cons.mp hd with rfl | hd'
    · have hk : k = cur := hdrun.unique hrun
      simp only [longestAux]
      split
      · have h1 := le_longestAux l' e (cur + 1) (max lg (cur + 1))
        omega
      · have h1 := le_longestAux l' e 1 lg
        omega
    · simp only [longestAux]
      split
      · rename_i hdiff
        apply ih (pre ++ [prev]) e (cur + 1) (max lg (cur + 1)) d k
        · rw [hdec]; simp
        · exact hpw
        · constructor
          · intro j hj
            cases j with
            | zero => simpa using he_mem
            | succ i =>
              have hcast : e - ((i + 1 : ℕ) : ℤ) = prev - (i : ℤ) := by push_cast; omega
              rw [hcast]
              exact hrun.1 i (by omega)
          · have hcast : e - ((cur + 1 : ℕ) : ℤ) = prev - ((cur : ℕ) : ℤ) := by
              push_cast; omega
            rw [hcast]
            exact hrun.2
        · omega
        · exact hd'
        · exact hdrun
      · rename_i hdiff
        apply ih (pre ++ [prev]) e 1 lg d k
        · rw [hdec]; simp
        · exact hpw
        · constructor
          · intro j hj
            have hj0 : j = 0 := by omega
            subst hj0
            simpa using he_mem
          · have hbetween := not_mem_between hpw' (show prev < e - 1 by omega)
              (show e - 1 < e by omega)
            rw [hdec]
            simpa using hbetween
        · omega
        · exact hd'
        · exact hdrun

/-- The first element of a strictly ascending date list has backward run
exactly 1: it is present and its predecessor day is not. -/
theorem isRun_head {d0 : ℤ} {rest : List ℤ}
    (hpw : (d0 :: rest).Pairwise (· < ·)) : IsRun (d0 :: rest) d0 1 := by
  constructor
  · intro j hj
    have hj0 : j = 0 := by omega
    subst hj0
    simp
  · intro hmem
    rcases List.mem_cons.mp hmem with h | h
    · omega
    · have := (List.pairwise_cons.mp hpw).1 _ h
      omega

/-- The walk-back-to-Sunday loop lands on `d` minus its weekday offset. -/
theorem weekStart_eq (d : ℤ) : weekStart d = d - weekday d := by
  simp only [weekStart, weekStartAux, weekday]
  split_ifs <;> omega

/-! ### Week map lemmas -/

theorem addToWeek_mem_keys (acc : List WeekData) (k' : ℤ) (w : ℕ) (k : ℤ) :
    k ∈ (addToWeek acc k' w).map WeekData.startDate
      ↔ k ∈ acc.map WeekData.startDate ∨ k = k' := by
  induction acc with
  | nil => simp [addToWeek]
  | cons b rest ih =>
    simp only [addToWeek]
    split
    · rename_i hb
      simp only [List.map_cons, List.mem_cons, hb]
      tauto
    · simp only [List.map_cons, List.mem_cons, ih]
      tauto

theorem addToWeek_keys_nodup (acc : List WeekData) (k' : ℤ) (w : ℕ)
    (h : (acc.map WeekData.startDate).Nodup) :
    ((addToWeek acc k' w).map WeekData.startDate).Nodup := by
  induction acc with
  | nil => simp [addToWeek]
  | cons b rest ih =>
    simp only [addToWeek]
    split
    · simpa using h
    · rename_i hb
      simp only [List.map_cons, List.nodup_cons] at h ⊢
      refine ⟨?_, ih h.2⟩
      intro hmem
      rcases (addToWeek_mem_keys rest k' w b.startDate).mp hmem with h1 | h1
      · exact h.1 h1
      · exact hb h1

theorem buildWeekMap_keys_nodup (notes : List NoteData) :
    ((buildWeekMap notes).map WeekData.startDate).Nodup := by
  have main : ∀ (l : List NoteData) (acc : List WeekData),
      (acc.map WeekData.startDate).Nodup →
      ((l.foldl (fun acc n => addToWeek acc (weekStart n.date) n.words) acc).map
        WeekData.startDate).Nodup := by
    intro l
    induction l with
    | nil => intro acc h; simpa using h
    | cons n rest ih =>
      intro acc h
      exact ih _ (addToWeek_keys_nodup acc _ _ h)
  simpa [buildWeekMap] using main notes [] (by simp)

theorem buildWeekMap_mem_keys (notes : List NoteData) (k : ℤ) :
    k ∈ (buildWeekMap notes).map WeekData.startDate
      ↔ ∃ n ∈ notes, weekStart n.date = k := by
  have main : ∀ (l : List NoteData) (acc : List WeekData),
      (k ∈ (l.foldl (fun acc n => addToWeek acc (weekStart n.date) n.words) acc).map
          WeekData.startDate
        ↔ k ∈ acc.map WeekData.startDate ∨ ∃ n ∈ l, weekStart n.date = k) := by
    intro l
    induction l with
    | nil => intro acc; simp
    | cons n rest ih =>
      intro acc
      rw [List.foldl_cons, ih, addToWeek_mem_keys]
      constructor
      · rintro ((h | h) | ⟨m, hm, hk⟩)
        · exact Or.inl h
        · exact Or.inr ⟨n, by simp, h.symm⟩
        · exact Or.inr ⟨m, by simp [hm], hk⟩
      · rintro (h | ⟨m, hm, hk⟩)
        · exact Or.inl (Or.inl h)
        · rcases List.mem_cons.mp hm with rfl | hm'
          · exact Or.inl (Or.inr hk.symm)
          · exact Or.inr ⟨m, hm', hk⟩
  simpa [buildWeekMap] using main notes []

/-- Total bucket words over the buckets whose week key satisfies `p`. -/
def bucketWordsSum (p : ℤ → Bool) (l : List WeekData) : ℕ :=
  ((l.filter fun b => p b.startDate).map WeekData.words).sum

/-- Total note words over the notes whose week key satisfies `p`. -/
def noteWordsSum (p : ℤ → Bool) (notes : List NoteData) : ℕ :=
  ((notes.filter fun n => p (weekStart n.date)).map NoteData.words).sum

theorem bucketWordsSum_addToWeek (p : ℤ → Bool) (acc : List WeekData) (k : ℤ) (w : ℕ) :
    bucketWordsSum p (addToWeek acc k w)
      = bucketWordsSum p acc + (if p k then w else 0) := by
  induction acc with
  | nil =>
    simp only [addToWeek, bucketWordsSum, List.filter]
    cases hp : p k <;> simp [hp]
  | cons b rest ih =>
    simp only [addToWeek]
    split
    · rename_i hb
      subst hb
      simp only [bucketWordsSum, List.filter]
      cases hp : p b.startDate <;> simp [hp, bucketWordsSum] <;> omega
    · simp only [bucketWordsSum, List.filter] at ih ⊢
      cases hp : p b.startDate <;> simp [hp, ih] <;> omega

theorem bucketWordsSum_foldl (p : ℤ → Bool) :
    ∀ (l : List NoteData) (acc : List WeekData),
      bucketWordsSum p (l.foldl (fun acc n => addToWeek acc (weekStart n.date) n.words) acc)
        = bucketWordsSum p acc + noteWordsSum p l := by
  intro l
  induction l with
  | nil => intro acc; simp [noteWordsSum]
  | cons n rest ih =>
    intro acc
    rw [List.foldl_cons, ih, bucketWordsSum_addToWeek]
    have : noteWordsSum p (n :: rest)
        = (if p (weekStart n.date) then n.words else 0) + noteWordsSum p rest := by
      simp only [noteWordsSum, List.filter]
      cases hp : p (weekStart n.date) <;> simp [hp]
    omega

theorem bucketWordsSum_map_setAvg (p : ℤ → Bool) (l : List WeekData) :
    bucketWordsSum p (l.map setAvg) = bucketWordsSum p l := by
  induction l with
  | nil => rfl
  | cons b rest ih =>
    simp only [List.map_cons, bucketWordsSum, List.filter] at ih ⊢
    cases hp : p b.startDate <;> simp [setAvg, hp] at ih ⊢ <;> omega

theorem bucketWordsSum_perm (p : ℤ → Bool) {l₁ l₂ : List WeekData}
    (h : List.Perm l₁ l₂) : bucketWordsSum p l₁ = bucketWordsSum p l₂ :=
  ((h.filter _).map WeekData.words).sum_eq

/-- The pre-truncation weekly buckets preserve note-word sums over every
class of week keys. -/
theorem bucketWordsSum_weeklyFull (p : ℤ → Bool) (notes : List NoteData) :
    bucketWordsSum p (weeklyFull notes) = noteWordsSum p notes := by
  rw [weeklyFull, bucketWordsSum_perm p (sortOn_perm _ _), bucketWordsSum_map_setAvg]
  simpa [buildWeekMap, bucketWordsSum] using bucketWordsSum_foldl p notes []

/-! ### Comment-stripper lemmas -/

theorem drop_take_append_drop (s : List Char) (st en q : ℕ)
    (hst : st ≤ s.length) (hq : st ≤ q) :
    (s.take st ++ s.drop (st + en + 3)).drop q = s.drop (q + en + 3) := by
  rw [List.drop_append_eq_append_drop]
  rw [List.drop_eq_nil_of_le (by simp [List.length_take]; omega)]
  rw [List.nil_append, List.drop_drop, List.length_take]
  congr 1
  omega

/-- Suffix preservation: if position `p` carries a comment opener and no
closer occurs at or after `p`, every loop iteration leaves the suffix of
the text from `p` onward intact (only shifting its position left as
earlier closed comments are removed). -/
theorem removeAux_unclosed (f : ℕ) :
    ∀ (s : List Char) (p : ℕ),
      openMark <+: s.drop p →
      (∀ q, p ≤ q → ¬ closeMark <+: s.drop q) →
      ∃ p', p' ≤ p ∧ (removeHTMLCommentsAux f s).drop p' = s.drop p := by
  induction f with
  | zero => intro s p _ _; exact ⟨p, le_rfl, rfl⟩
  | succ f ih =>
    intro s p hopen hnc
    cases h1 : strIndex s openMark with
    | none => exact ⟨p, le_rfl, by simp [removeHTMLCommentsAux, h1]⟩
    | some st =>
      cases h2 : strIndex (s.drop st) closeMark with
      | none => exact ⟨p, le_rfl, by simp [removeHTMLCommentsAux, h1, h2]⟩
      | some en =>
        have hcl : closeMark <+: s.drop (st + en) := by
          have h := strIndex_isPrefixOf h2
          rwa [List.drop_drop] at h
        have hlt : st + en < p := by
          by_contra hle
          exact hnc (st + en) (by omega) hcl
        obtain ⟨r, hr⟩ := hcl
        have hp3 : st + en + 3 ≤ p := by
          by_contra h3
          have hcase : p = st + en + 1 ∨ p = st + en + 2 := by omega
          obtain ⟨r2, hr2⟩ := hopen
          rcases hcase with rfl | rfl
          · have hd : s.drop (st + en + 1) = '-' :: '>' :: r := by
              have hdd : s.drop (st + en + 1) = (s.drop (st + en)).drop 1 := by
                rw [List.drop_drop]
              rw [hdd, ← hr]
              rfl
            rw [hd] at hr2
            simp [openMark] at hr2
          · have hd : s.drop (st + en + 2) = '>' :: r := by
              have hdd : s.drop (st + en + 2) = (s.drop (st + en)).drop 2 := by
                rw [List.drop_drop]
              rw [hdd, ← hr]
              rfl
            rw [hd] at hr2
            simp [openMark] at hr2
        have hst_len := strIndex_le_length h1
        simp only [openMark, List.length_cons, List.length_nil] at hst_len
        have hdropeq : (s.take st ++ s.drop (st + en + 3)).drop (p - (en + 3)) = s.drop p := by
          rw [drop_take_append_drop s st en (p - (en + 3)) (by omega) (by omega)]
          congr 1
          omega
        have hopen' : openMark <+: (s.take st ++ s.drop (st + en + 3)).drop (p - (en + 3)) := by
          rw [hdropeq]; exact hopen
        have hnc' : ∀ q, p - (en + 3) ≤ q →
            ¬ closeMark <+: (s.take st ++ s.drop (st + en + 3)).drop q := by
          intro q hq
          rw [drop_take_append_drop s st en q (by omega) (by omega)]
          exact hnc (q + en + 3) (by omega)
        obtain ⟨p', hp', heq⟩ := ih (s.take st ++ s.drop (st + en + 3)) (p - (en + 3)) hopen' hnc'
        refine ⟨p', by omega, ?_⟩
        simp only [removeHTMLCommentsAux, h1, h2]
        rw [heq, hdropeq]

/-- Each loop iteration only removes text: the output never grows. -/
theorem removeAux_length_le (f : ℕ) :
    ∀ s, (removeHTMLCommentsAux f s).length ≤ s.length := by
  induction f with
  | zero => intro s; simp [removeHTMLCommentsAux]
  | succ f ih =>
    intro s
    cases h1 : strIndex s openMark with
    | none => simp [removeHTMLCommentsAux, h1]
    | some st =>
      cases h2 : strIndex (s.drop st) closeMark with
      | none => simp [removeHTMLCommentsAux, h1, h2]
      | some en =>
        simp only [removeHTMLCommentsAux, h1, h2]
        have hrec := ih (s.take st ++ s.drop (st + en + 3))
        have hst := strIndex_le_length h1
        simp only [openMark, List.length_cons, List.length_nil] at hst
        refine le_trans hrec ?_
        simp only [List.length_append, List.length_take, List.length_drop]
        omega

/-- In a bucket list with distinct keys, a present key owns exactly one
bucket. -/
theorem filter_key_singleton (l : List WeekData) (k : ℤ)
    (hnodup : (l.map WeekData.startDate).Nodup)
    (hmem : k ∈ l.map WeekData.startDate) :
    (l.filter fun b => b.startDate == k).length = 1 := by
  induction l with
  | nil => simp at hmem
  | cons b rest ih =>
    simp only [List.map_cons, List.nodup_cons] at hnodup
    by_cases hk : b.startDate = k
    · subst hk
      rw [List.filter_cons_of_pos (by simp)]
      have hnil : rest.filter (fun x => x.startDate == b.startDate) = [] := by
        refine List.filter_eq_nil_iff.mpr fun x hx => ?_
        simp only [beq_iff_eq]
        intro hxe
        exact hnodup.1 (hxe ▸ List.mem_map_of_mem WeekData.startDate hx)
      simp [hnil]
    · rw [List.filter_cons_of_neg (by simpa using hk)]
      refine ih hnodup.2 ?_
      rcases List.mem_cons.mp hmem with h | h
      · exact absurd h.symm hk
      · exact h

end StatsUI

section Scratch

example : civil 1970 1 1 = 0 := by decide
example : civil 2024 1 1 = 19723 := by decide
example : weekday (civil 2024 1 7) = 0 := by decide
example : StatsUI.weekStart (civil 2024 1 10) = civil 2024 1 7 := by decide
example : StatsUI.weekStart (civil 2024 1 6) = civil 2023 12 31 := by decide
example : StatsUI.calculateLongestStreak
    [⟨civil 2024 1 1, 3⟩, ⟨civil 2024 1 2, 3⟩, ⟨civil 2024 1 3, 3⟩, ⟨civil 2024 1 5, 5⟩] = 3 := by
  decide
example : StatsUI.calculateCurrentStreak
    [civil 2024 1 1, civil 2024 1 2, civil 2024 1 3, civil 2024 1 5] (civil 2024 1 5) = 1 := by
  decide

example :
    StatsUI.removeHTMLComments "<!-- 2024-01-01 -->\n<!-- Prompt text -->\n\nHello world".toList
      = "\n\n\nHello world".toList := by decide
example : StatsUI.filteredWordCount "<!-- 2024-01-01 -->\n<!-- Prompt text -->\n\nHello world".toList = 2 := by decide
example : StatsUI.filteredWordCount "<!--\nhello world\n-->".toList = 0 := by decide
example : StatsUI.removeHTMLComments "ab <!-- x --> cd <!-- open".toList = "ab  cd <!-- open".toList := by decide
example : fields "  Hello   world ".toList = ["Hello".toList, "world".toList] := by decide
example : splitLines "a\nb\n\nc".toList = ["a".toList, "b".toList, [], "c".toList] := by decide
example : trimSpace "  <!-- x -->  ".toList = "<!-- x -->".toList := by decide

example : parseDate "2024-01-07".toList = some (civil 2024 1 7) := by decide
example : parseDate "2024-02-30".toList = none := by decide
example : parseDate "2024-1-7".toList = none := by decide
example : parseDate "hello".toList = none := by decide
example : Editor.countWords "<!-- 2024-01-01 -->\n<!-- Prompt text -->\n\nHello world".toList = 2 := by decide
example :
    (Editor.processGhostText "<!-- 2024-01-01 -->\n<!-- Prompt text -->\n\nHello world".toList).2
      = ["2024-01-01".toList, "Prompt text".toList] := by decide
example : Editor.countWords "<!--\nhello world\n-->".toList = 4 := by decide
example : Root.countWords "a b  c\n".toList = 3 := by decide
example :
    Root.collectDailyStats
      [⟨"2024-01-02.md".toList, some "one two".toList, .absent⟩,
       ⟨"2024-01-01.md".toList, some "x".toList, .ok 5⟩,
       ⟨"junk.md".toList, some "zzz".toList, .absent⟩,
       ⟨"2024-01-03.md".toList, none, .absent⟩,
       ⟨"2024-01-04.md".toList, some "a".toList, .malformed⟩]
    = [⟨civil 2024 1 1, 1, 5000000000⟩, ⟨civil 2024 1 2, 2, 0⟩, ⟨civil 2024 1 4, 1, 0⟩] := by
  decide

end Scratch

/-! ## Claim C1: longest streak dominates current streak -/

/-- **C1**: for every corpus of dated daily notes — one `noteData` per
date, listed ascending by date, exactly the shape `collectStats` hands to
the two streak calculators — and every query date, the longest streak is
at least the current streak; and the empty corpus yields 0 and 0. -/
theorem longest_streak_ge_current_streak (notes : List StatsUI.NoteData) (today : ℤ)
    (hsorted : (notes.map StatsUI.NoteData.date).Pairwise (· < ·)) :
    StatsUI.calculateCurrentStreak (notes.map StatsUI.NoteData.date) today
      ≤ StatsUI.calculateLongestStreak notes
    ∧ StatsUI.calculateCurrentStreak (([] : List StatsUI.NoteData).map StatsUI.NoteData.date) today = 0
    ∧ StatsUI.calculateLongestStreak ([] : List StatsUI.NoteData) = 0 := by
  refine ⟨?_, by simp [StatsUI.calculateCurrentStreak], rfl⟩
  by_cases h1 : today ∈ notes.map StatsUI.NoteData.date
  · have hrun := StatsUI.backCount_isRun (notes.map StatsUI.NoteData.date) today
    cases notes with
    | nil => simp at h1
    | cons n rest =>
      rw [StatsUI.calculateCurrentStreak, if_pos h1]
      exact StatsUI.longestAux_ge_run ((n :: rest).map StatsUI.NoteData.date)
        (rest.map StatsUI.NoteData.date) [] n.date 1 1 today _
        rfl hsorted (StatsUI.isRun_head hsorted) le_rfl h1 hrun
  · by_cases h2 : today - 1 ∈ notes.map StatsUI.NoteData.date
    · have hrun := StatsUI.backCount_isRun (notes.map StatsUI.NoteData.date) (today - 1)
      cases notes with
      | nil => simp at h2
      | cons n rest =>
        rw [StatsUI.calculateCurrentStreak, if_neg h1, if_pos h2]
        exact StatsUI.longestAux_ge_run ((n :: rest).map StatsUI.NoteData.date)
          (rest.map StatsUI.NoteData.date) [] n.date 1 1 (today - 1) _
          rfl hsorted (StatsUI.isRun_head hsorted) le_rfl h2 hrun
    · rw [StatsUI.calculateCurrentStreak, if_neg h1, if_neg h2]
      exact Nat.zero_le _

/-- Witness for C1 at the corpus {day 0, day 1, day 3} queried on day 3
(current streak 1, longest streak 2). -/
theorem longest_streak_ge_current_streak_witness :
    StatsUI.calculateCurrentStreak
        (([⟨0, 1⟩, ⟨1, 2⟩, ⟨3, 1⟩] : List StatsUI.NoteData).map StatsUI.NoteData.date) 3
      ≤ StatsUI.calculateLongestStreak ([⟨0, 1⟩, ⟨1, 2⟩, ⟨3, 1⟩] : List StatsUI.NoteData)
    ∧ StatsUI.calculateCurrentStreak (([] : List StatsUI.NoteData).map StatsUI.NoteData.date) 3 = 0
    ∧ StatsUI.calculateLongestStreak ([] : List StatsUI.NoteData) = 0 :=
  longest_streak_ge_current_streak [⟨0, 1⟩, ⟨1, 2⟩, ⟨3, 1⟩] 3 (by decide)

/-! ## Claim C3: anchoring of the current streak -/

/-- **C3 counterexample**: corpus {day 0} queried on day 1 — today has no
DailyStat but yesterday does, so the claim's grace rule demands the streak
anchor on yesterday and count its backward run (which is 1, as the last
conjunct shows is violated); `stats.go`'s `calculateCurrentStreak`
nevertheless returns 0. -/
theorem current_streak_no_grace_in_root :
    (1 : ℤ) ∉ [(0 : ℤ)] ∧ ((1 : ℤ) - 1) ∈ [(0 : ℤ)]
    ∧ Root.calculateCurrentStreak [(0 : ℤ)] 1 = 0
    ∧ ¬ IsRun [(0 : ℤ)] (1 - 1) (Root.calculateCurrentStreak [(0 : ℤ)] 1) := by
  refine ⟨by decide, by decide, by decide, ?_⟩
  intro h
  have h2 := h.2
  rw [show Root.calculateCurrentStreak [(0 : ℤ)] 1 = 0 from by decide] at h2
  simp at h2

/-- **C3 (amended)**: the `statsui` aggregation anchors the current streak
on today when today has a DailyStat and otherwise on yesterday, returns 0
when neither has one, and otherwise counts consecutive present dates
walking backward from the anchor to the first gap; the `stats.go`
aggregation instead anchors only on today — when today has no DailyStat it
returns 0 even if yesterday has one. -/
theorem current_streak_characterization (dates : List ℤ) (today : ℤ) :
    (today ∈ dates →
        IsRun dates today (StatsUI.calculateCurrentStreak dates today)
      ∧ IsRun dates today (Root.calculateCurrentStreak dates today))
    ∧ (today ∉ dates → today - 1 ∈ dates →
        IsRun dates (today - 1) (StatsUI.calculateCurrentStreak dates today)
      ∧ Root.calculateCurrentStreak dates today = 0)
    ∧ (today ∉ dates → today - 1 ∉ dates →
        StatsUI.calculateCurrentStreak dates today = 0
      ∧ Root.calculateCurrentStreak dates today = 0) := by
  refine ⟨fun h1 => ⟨?_, ?_⟩, fun h1 h2 => ⟨?_, ?_⟩, fun h1 h2 => ⟨?_, ?_⟩⟩
  · rw [StatsUI.calculateCurrentStreak, if_pos h1]
    exact StatsUI.backCount_isRun dates today
  · have hne : dates ≠ [] := fun he => by simp [he] at h1
    rw [Root.calculateCurrentStreak, if_neg hne, if_pos h1]
    exact StatsUI.backCount_isRun dates today
  · rw [StatsUI.calculateCurrentStreak, if_neg h1, if_pos h2]
    exact StatsUI.backCount_isRun dates (today - 1)
  · simp [Root.calculateCurrentStreak, h1]
  · rw [StatsUI.calculateCurrentStreak, if_neg h1, if_neg h2]
  · simp [Root.calculateCurrentStreak, h1]

/-- Witness for the amended C3 at corpus {day 0, day 1} queried on day 2:
today (day 2) absent, yesterday (day 1) present — `statsui` counts the
backward run from day 1 while `stats.go` reports 0. -/
theorem current_streak_characterization_witness :
    IsRun [(0 : ℤ), 1] ((2 : ℤ) - 1) (StatsUI.calculateCurrentStreak [(0 : ℤ), 1] 2)
    ∧ Root.calculateCurrentStreak [(0 : ℤ), 1] 2 = 0 :=
  (current_streak_characterization [(0 : ℤ), 1] 2).2.1 (by decide) (by decide)

/-! ## Claim C4: week bucketing keys -/

/-- **C4**: every DailyStat's week key is `weekStart` of its date, which
is a Sunday, lies on or before the date, within 6 days of it, and is the
most recent such Sunday; the week map holds exactly one bucket per
occupied key; and 2024-01-07 (Sunday) and 2024-01-10 (Wednesday) key to
2024-01-07 while 2024-01-06 (Saturday) keys to the prior bucket
2023-12-31, one week earlier. -/
theorem week_bucket_key_most_recent_sunday (d : ℤ) :
    weekday (StatsUI.weekStart d) = 0
    ∧ StatsUI.weekStart d ≤ d
    ∧ d - StatsUI.weekStart d < 7
    ∧ (∀ s : ℤ, weekday s = 0 → s ≤ d → s ≤ StatsUI.weekStart d)
    ∧ (∀ (notes : List StatsUI.NoteData) (n : StatsUI.NoteData), n ∈ notes →
        ((StatsUI.buildWeekMap notes).filter
          (fun b => b.startDate == StatsUI.weekStart n.date)).length = 1)
    ∧ StatsUI.weekStart (civil 2024 1 7) = civil 2024 1 7
    ∧ StatsUI.weekStart (civil 2024 1 10) = civil 2024 1 7
    ∧ StatsUI.weekStart (civil 2024 1 6) = civil 2023 12 31
    ∧ civil 2023 12 31 + 7 = civil 2024 1 7 := by
  refine ⟨?_, ?_, ?_, ?_, ?_, by decide, by decide, by decide, by decide⟩
  · simp only [StatsUI.weekStart_eq, weekday]
    omega
  · simp only [StatsUI.weekStart_eq, weekday]
    omega
  · simp only [StatsUI.weekStart_eq, weekday]
    omega
  · intro s hs hsd
    simp only [StatsUI.weekStart_eq, weekday] at *
    omega
  · intro notes n hn
    refine StatsUI.filter_key_singleton _ _ (StatsUI.buildWeekMap_keys_nodup notes) ?_
    exact (StatsUI.buildWeekMap_mem_keys notes _).mpr ⟨n, hn, rfl⟩

/-- Witness for C4 at 2024-01-10: the most-recent-Sunday bound applied to
the Sunday 2024-01-07, and the one-bucket count for a singleton corpus. -/
theorem week_bucket_key_most_recent_sunday_witness :
    civil 2024 1 7 ≤ StatsUI.weekStart (civil 2024 1 10)
    ∧ ((StatsUI.buildWeekMap [⟨civil 2024 1 10, 2⟩]).filter
        (fun b => b.startDate == StatsUI.weekStart
          ((⟨civil 2024 1 10, 2⟩ : StatsUI.NoteData).date))).length = 1 :=
  ⟨(week_bucket_key_most_recent_sunday (civil 2024 1 10)).2.2.2.1 (civil 2024 1 7)
      (by decide) (by decide),
   (week_bucket_key_most_recent_sunday (civil 2024 1 10)).2.2.2.2.1
      [⟨civil 2024 1 10, 2⟩] ⟨civil 2024 1 10, 2⟩ (by decide)⟩

/-! ## Claim C5: bucket exposure and windowing -/

/-- **C5 counterexample**: a corpus of nine notes in nine distinct weeks
(one word each).  The claim promises one exposed bucket per occupied week
with windowing left to the caller, but `calculateWeeklyData` itself keeps
only the last 8 buckets: the output has 8 buckets for 9 occupied weeks,
and the earliest occupied week's key is missing from it. -/
theorem weekly_data_windows_internally :
    (StatsUI.calculateWeeklyData
        [⟨0, 1⟩, ⟨7, 1⟩, ⟨14, 1⟩, ⟨21, 1⟩, ⟨28, 1⟩, ⟨35, 1⟩, ⟨42, 1⟩, ⟨49, 1⟩, ⟨56, 1⟩]).length = 8
    ∧ ((([⟨0, 1⟩, ⟨7, 1⟩, ⟨14, 1⟩, ⟨21, 1⟩, ⟨28, 1⟩, ⟨35, 1⟩, ⟨42, 1⟩, ⟨49, 1⟩, ⟨56, 1⟩] :
          List StatsUI.NoteData).map fun n => StatsUI.weekStart n.date).dedup).length = 9
    ∧ StatsUI.weekStart 0 ∉
        (StatsUI.calculateWeeklyData
          [⟨0, 1⟩, ⟨7, 1⟩, ⟨14, 1⟩, ⟨21, 1⟩, ⟨28, 1⟩, ⟨35, 1⟩, ⟨42, 1⟩, ⟨49, 1⟩, ⟨56, 1⟩]).map
          StatsUI.WeekData.startDate := by
  refine ⟨by decide, by decide, by decide⟩

/-- **C5 (amended)**: the pre-truncation bucket list has exactly one
bucket per week containing a DailyStat and is sorted strictly ascending by
week-start key; but the aggregator then windows internally — the value
`calculateWeeklyData` returns is the suffix of that list holding only the
last `min length 8` buckets (still sorted ascending).  Callers are not
given the full bucket list to slice. -/
theorem weekly_buckets_sorted_then_truncated (notes : List StatsUI.NoteData) :
    ((StatsUI.weeklyFull notes).map StatsUI.WeekData.startDate).Pairwise (· < ·)
    ∧ (∀ k : ℤ, k ∈ (StatsUI.weeklyFull notes).map StatsUI.WeekData.startDate
        ↔ ∃ n ∈ notes, StatsUI.weekStart n.date = k)
    ∧ (StatsUI.calculateWeeklyData notes) <:+ (StatsUI.weeklyFull notes)
    ∧ (StatsUI.calculateWeeklyData notes).length = min (StatsUI.weeklyFull notes).length 8
    ∧ ((StatsUI.calculateWeeklyData notes).map StatsUI.WeekData.startDate).Pairwise (· < ·) := by
  have hkeys : ((StatsUI.buildWeekMap notes).map StatsUI.setAvg).map StatsUI.WeekData.startDate
      = (StatsUI.buildWeekMap notes).map StatsUI.WeekData.startDate := by
    rw [List.map_map]
    rfl
  have hsorted : ((StatsUI.weeklyFull notes).map StatsUI.WeekData.startDate).Pairwise (· < ·) := by
    rw [List.pairwise_map]
    exact sortOn_pairwise_lt StatsUI.WeekData.startDate _
      (by rw [hkeys]; exact StatsUI.buildWeekMap_keys_nodup notes)
  have hsuffix : (StatsUI.calculateWeeklyData notes) <:+ (StatsUI.weeklyFull notes) := by
    rw [StatsUI.calculateWeeklyData]
    split
    · exact List.drop_suffix _ _
    · exact List.suffix_refl _
  refine ⟨hsorted, ?_, hsuffix, ?_, ?_⟩
  · intro k
    have hperm : List.Perm ((StatsUI.weeklyFull notes).map StatsUI.WeekData.startDate)
        (((StatsUI.buildWeekMap notes).map StatsUI.setAvg).map StatsUI.WeekData.startDate) :=
      (sortOn_perm _ _).map _
    rw [hperm.mem_iff, hkeys]
    exact StatsUI.buildWeekMap_mem_keys notes k
  · rw [StatsUI.calculateWeeklyData]
    split
    · rename_i h
      rw [List.length_drop]
      omega
    · rename_i h
      omega
  · rw [List.pairwise_map] at hsorted ⊢
    exact hsorted.sublist hsuffix.sublist

/-! ## Claim C6: week-bucket sums against daily sums -/

/-- **C6 counterexample**: with nine one-word notes in nine distinct
weeks, the exposed week buckets sum to 8 words while the underlying
DailyStats in the same (entire, contiguous) span sum to 9 — the bucket
dropped by the internal 8-week window loses its stat. -/
theorem weekly_sum_drops_old_weeks :
    (((StatsUI.calculateWeeklyData
        [⟨0, 1⟩, ⟨7, 1⟩, ⟨14, 1⟩, ⟨21, 1⟩, ⟨28, 1⟩, ⟨35, 1⟩, ⟨42, 1⟩, ⟨49, 1⟩, ⟨56, 1⟩]).map
          StatsUI.WeekData.words).sum = 8)
    ∧ ((([⟨0, 1⟩, ⟨7, 1⟩, ⟨14, 1⟩, ⟨21, 1⟩, ⟨28, 1⟩, ⟨35, 1⟩, ⟨42, 1⟩, ⟨49, 1⟩, ⟨56, 1⟩] :
          List StatsUI.NoteData).map StatsUI.NoteData.words).sum = 9) := by
  refine ⟨by decide, by decide⟩

/-- **C6 (amended)**: over the aggregator's pre-truncation bucket list the
claim holds exactly: for every contiguous range of week keys, the bucket
words over the range sum to the note words whose week key falls in the
range — every DailyStat is counted in exactly one bucket, no double
counting, no loss; and the grand totals agree.  (After the internal
last-8-weeks truncation of `calculateWeeklyData`, stats in dropped weeks
are absent, per the counterexample.) -/
theorem weekly_sums_match_before_truncation (notes : List StatsUI.NoteData) (a b : ℤ) :
    StatsUI.bucketWordsSum (fun k => decide (a ≤ k ∧ k ≤ b)) (StatsUI.weeklyFull notes)
      = StatsUI.noteWordsSum (fun k => decide (a ≤ k ∧ k ≤ b)) notes
    ∧ ((StatsUI.weeklyFull notes).map StatsUI.WeekData.words).sum
      = (notes.map StatsUI.NoteData.words).sum := by
  refine ⟨StatsUI.bucketWordsSum_weeklyFull _ notes, ?_⟩
  have h := StatsUI.bucketWordsSum_weeklyFull (fun _ => true) notes
  simpa [StatsUI.bucketWordsSum, StatsUI.noteWordsSum] using h

/-! ## Claim C7: activity clock accumulation -/

/-- **C7**: on a 1-second tick at wall time `now`, when the time since the
last keystroke is under 60 seconds exactly one second is added to the
accumulated typing duration (and the last-activity stamp is untouched);
otherwise the state is left entirely unchanged.  Consequently, over any
run of ticks during a keystroke gap of more than 60 seconds the
accumulated duration gains nothing. -/
theorem tick_accumulates_only_within_idle_cutoff (now : ℤ) (m : Editor.ActivityState) :
    (now - m.lastActivity < Editor.nsPerMinute →
        (Editor.tickUpdate now m).typingTime = m.typingTime + Editor.nsPerSecond
      ∧ (Editor.tickUpdate now m).lastActivity = m.lastActivity)
    ∧ (Editor.nsPerMinute ≤ now - m.lastActivity → Editor.tickUpdate now m = m)
    ∧ (∀ ticks : List ℤ, (∀ t ∈ ticks, m.lastActivity + Editor.nsPerMinute ≤ t) →
        ticks.foldl (fun s t => Editor.tickUpdate t s) m = m) := by
  refine ⟨fun h => ?_, fun h => ?_, fun ticks h => ?_⟩
  · rw [Editor.tickUpdate, if_pos h]
    exact ⟨rfl, rfl⟩
  · rw [Editor.tickUpdate, if_neg (by omega)]
  · induction ticks with
    | nil => rfl
    | cons t ts ih =>
      rw [List.foldl_cons]
      have hstep : Editor.tickUpdate t m = m := by
        have := h t (by simp)
        rw [Editor.tickUpdate, if_neg (by omega)]
      rw [hstep]
      exact ih fun x hx => h x (by simp [hx])

/-- Witness for C7: one tick 30 s after a keystroke adds one second; two
ticks 61 s and 62 s after it add nothing. -/
theorem tick_accumulates_only_within_idle_cutoff_witness :
    ((Editor.tickUpdate 30000000000 ⟨0, 5000000000⟩).typingTime
        = 5000000000 + Editor.nsPerSecond
      ∧ (Editor.tickUpdate 30000000000 ⟨0, 5000000000⟩).lastActivity = 0)
    ∧ ([(61000000000 : ℤ), 62000000000].foldl (fun s t => Editor.tickUpdate t s)
        ⟨0, 5000000000⟩ = ⟨0, 5000000000⟩) :=
  ⟨(tick_accumulates_only_within_idle_cutoff 30000000000 ⟨0, 5000000000⟩).1 (by decide),
   (tick_accumulates_only_within_idle_cutoff 30000000000 ⟨0, 5000000000⟩).2.2
      [61000000000, 62000000000] (by decide)⟩

/-! ## Claim C8: sidecar failures default to zero, never fail the pass -/

theorem root_collectLoop_mem :
    ∀ (entries : List FileEntry) (e : FileEntry) (d : ℤ) (text : List Char),
      e ∈ entries → parseDate (trimSuffixStr mdExt e.name) = some d →
      e.content = some text →
      (⟨d, Root.countWords text, Root.sidecarDuration e.sidecar⟩ : Root.DailyStat)
        ∈ Root.collectLoop entries := by
  intro entries
  induction entries with
  | nil => intro e d text h _ _; simp at h
  | cons f rest ih =>
    intro e d text hmem hdate hcontent
    rcases List.mem_cons.mp hmem with rfl | hmem'
    · simp only [Root.collectLoop, hdate, hcontent]
      exact List.mem_cons_self _ _
    · have hrec := ih e d text hmem' hdate hcontent
      simp only [Root.collectLoop]
      cases hp : parseDate (trimSuffixStr mdExt f.name) with
      | none => exact hrec
      | some d' =>
        cases hc : f.content with
        | none => exact hrec
        | some t => exact List.mem_cons_of_mem _ hrec

/-- **C8**: every parseable, readable note file contributes a DailyStat
whose typing duration is exactly the sidecar branch's value — `secs ×
10⁹ ns` when the sidecar decodes, and 0 ns when it is absent or
malformed; a bad sidecar neither drops the file from the pass (the stat is
still in the output) nor fails it, and the editing session's seed value
behaves the same way. -/
theorem sidecar_defaults_to_zero (entries : List FileEntry) (e : FileEntry)
    (d : ℤ) (text : List Char)
    (hmem : e ∈ entries)
    (hdate : parseDate (trimSuffixStr mdExt e.name) = some d)
    (hcontent : e.content = some text) :
    (⟨d, Root.countWords text, Root.sidecarDuration e.sidecar⟩ : Root.DailyStat)
        ∈ Root.collectDailyStats entries
    ∧ Root.sidecarDuration .absent = 0
    ∧ Root.sidecarDuration .malformed = 0
    ∧ (∀ secs : ℤ, Root.sidecarDuration (.ok secs) = secs * Root.nsPerSecond)
    ∧ Editor.loadStatsValue .absent = 0
    ∧ Editor.loadStatsValue .malformed = 0 := by
  refine ⟨?_, rfl, rfl, fun _ => rfl, rfl, rfl⟩
  exact (sortOn_perm Root.DailyStat.date (Root.collectLoop entries)).mem_iff.mpr
    (root_collectLoop_mem entries e d text hmem hdate hcontent)

/-- Witness for C8: a malformed sidecar on 2024-01-01 still yields that
day's DailyStat, with zero duration. -/
theorem sidecar_defaults_to_zero_witness :
    (⟨civil 2024 1 1, Root.countWords "hi there".toList,
        Root.sidecarDuration .malformed⟩ : Root.DailyStat)
      ∈ Root.collectDailyStats [⟨"2024-01-01.md".toList, some "hi there".toList, .malformed⟩]
    ∧ Root.sidecarDuration .malformed = 0 :=
  ⟨(sidecar_defaults_to_zero [⟨"2024-01-01.md".toList, some "hi there".toList, .malformed⟩]
      ⟨"2024-01-01.md".toList, some "hi there".toList, .malformed⟩
      (civil 2024 1 1) "hi there".toList (by decide) (by decide) rfl).1,
   rfl⟩

/-! ## Claim C9: zero-byte notes are active days -/

theorem statsui_collectLoop_mem :
    ∀ (entries : List FileEntry) (e : FileEntry) (d : ℤ) (text : List Char),
      e ∈ entries →
      (['.'] : List Char).isPrefixOf e.name = false →
      parseDate (trimSuffixStr mdExt e.name) = some d →
      e.content = some text →
      (⟨d, StatsUI.filteredWordCount text⟩ : StatsUI.NoteData)
        ∈ StatsUI.collectLoop entries := by
  intro entries
  induction entries with
  | nil => intro e d text h _ _ _; simp at h
  | cons f rest ih =>
    intro e d text hmem hdot hdate hcontent
    rcases List.mem_cons.mp hmem with rfl | hmem'
    · simp only [StatsUI.collectLoop, hdot, Bool.false_eq_true, if_false, hdate, hcontent]
      exact List.mem_cons_self _ _
    · have hrec := ih e d text hmem' hdot hdate hcontent
      simp only [StatsUI.collectLoop]
      split
      · exact hrec
      · cases hp : parseDate (trimSuffixStr mdExt f.name) with
        | none => exact hrec
        | some d' =>
          cases hc : f.content with
          | none => exact hrec
          | some t => exact List.mem_cons_of_mem _ hrec

/-- **C9**: a zero-byte note file whose name parses as a date yields a
`noteData` with word count 0 that is present in the aggregation corpus —
its date is in the date set the streak calculators and bucketers consume,
and the current streak queried on that date is at least 1 (an active day,
not a missing one). -/
theorem zero_byte_note_counts_as_active_day (entries : List FileEntry) (e : FileEntry)
    (d : ℤ)
    (hmem : e ∈ entries)
    (hdot : (['.'] : List Char).isPrefixOf e.name = false)
    (hdate : parseDate (trimSuffixStr mdExt e.name) = some d)
    (hcontent : e.content = some []) :
    (⟨d, 0⟩ : StatsUI.NoteData) ∈ StatsUI.collectNotes entries
    ∧ d ∈ (StatsUI.collectNotes entries).map StatsUI.NoteData.date
    ∧ 1 ≤ StatsUI.calculateCurrentStreak
        ((StatsUI.collectNotes entries).map StatsUI.NoteData.date) d := by
  have hzero : StatsUI.filteredWordCount ([] : List Char) = 0 := rfl
  have hloop := statsui_collectLoop_mem entries e d [] hmem hdot hdate hcontent
  rw [hzero] at hloop
  have hnotes : (⟨d, 0⟩ : StatsUI.NoteData) ∈ StatsUI.collectNotes entries :=
    (sortOn_perm StatsUI.NoteData.date (StatsUI.collectLoop entries)).mem_iff.mpr hloop
  have hdmem : d ∈ (StatsUI.collectNotes entries).map StatsUI.NoteData.date :=
    List.mem_map_of_mem StatsUI.NoteData.date hnotes
  refine ⟨hnotes, hdmem, ?_⟩
  rw [StatsUI.calculateCurrentStreak, if_pos hdmem]
  exact StatsUI.backCount_pos _ d hdmem

/-- Witness for C9: the empty note file `2024-01-01.md` produces an active
day with word count 0 and a current streak of (at least) 1 on that day. -/
theorem zero_byte_note_counts_as_active_day_witness :
    (⟨civil 2024 1 1, 0⟩ : StatsUI.NoteData)
      ∈ StatsUI.collectNotes [⟨"2024-01-01.md".toList, some [], .absent⟩]
    ∧ civil 2024 1 1 ∈
        (StatsUI.collectNotes [⟨"2024-01-01.md".toList, some [], .absent⟩]).map
          StatsUI.NoteData.date
    ∧ 1 ≤ StatsUI.calculateCurrentStreak
        ((StatsUI.collectNotes [⟨"2024-01-01.md".toList, some [], .absent⟩]).map
          StatsUI.NoteData.date) (civil 2024 1 1) :=
  zero_byte_note_counts_as_active_day [⟨"2024-01-01.md".toList, some [], .absent⟩]
    ⟨"2024-01-01.md".toList, some [], .absent⟩ (civil 2024 1 1)
    (by decide) (by decide) (by decide) rfl

/-! ## Claim C10: unclosed comment openers are left as prose -/

/-- **C10**: if the text carries a comment opener at position `p` with no
closer anywhere at or after it, the comment stripper leaves the entire
text from that opener onward unchanged — it reappears verbatim (opener
included) as a suffix of the output, so its tokens are counted as prose;
moreover the stripper always terminates: every fuel bound of at least the
text's length yields the same result, and the output never grows. -/
theorem unclosed_opener_survives_filter (s : List Char) (p : ℕ)
    (hopen : openMark <+: s.drop p)
    (hnoclose : ∀ q, q ≤ s.length → p ≤ q → ¬ closeMark <+: s.drop q) :
    (∃ p', p' ≤ p ∧ (StatsUI.removeHTMLComments s).drop p' = s.drop p
      ∧ openMark <+: (StatsUI.removeHTMLComments s).drop p')
    ∧ (∀ f, s.length ≤ f → StatsUI.removeHTMLCommentsAux f s = StatsUI.removeHTMLComments s)
    ∧ (StatsUI.removeHTMLComments s).length ≤ s.length := by
  have hnc : ∀ q, p ≤ q → ¬ closeMark <+: s.drop q := by
    intro q hq hcl
    by_cases hle : q ≤ s.length
    · exact hnoclose q hle hq hcl
    · have h3 := hcl.length_le
      rw [List.length_drop] at h3
      simp only [closeMark, List.length_cons, List.length_nil] at h3
      omega
  refine ⟨?_, fun f hf => StatsUI.removeHTMLCommentsAux_stable s.length s f (s.length + 1)
      le_rfl hf (by omega), StatsUI.removeAux_length_le _ s⟩
  obtain ⟨p', h1, h2⟩ := StatsUI.removeAux_unclosed (s.length + 1) s p hopen hnc
  exact ⟨p', h1, h2, by rw [StatsUI.removeHTMLComments, h2]; exact hopen⟩

/-- Witness for C10 on `"ab <!-- xy"`: the opener at position 3 has no
closer, and the stripper leaves the text untouched from it onward. -/
theorem unclosed_opener_survives_filter_witness :
    (∃ p', p' ≤ 3 ∧ (StatsUI.removeHTMLComments "ab <!-- xy".toList).drop p'
        = "ab <!-- xy".toList.drop 3
      ∧ openMark <+: (StatsUI.removeHTMLComments "ab <!-- xy".toList).drop p')
    ∧ (StatsUI.removeHTMLComments "ab <!-- xy".toList).length ≤ "ab <!-- xy".toList.length :=
  ⟨(unclosed_opener_survives_filter "ab <!-- xy".toList 3 (by decide) (by decide)).1,
   (unclosed_opener_survives_filter "ab <!-- xy".toList 3 (by decide) (by decide)).2.2⟩

/-! ## Claim C2: the content filter -/

/-- **C2 counterexample**: the note `"<!--\nhello world\n-->"` is one
comment wrapped across three lines.  Per the claim no single line of it
qualifies as ghost text (third conjunct), so the claim's word count is the
4 tokens `<!--`, `hello`, `world`, `-->` (second conjunct computes exactly
that via the line-based rule); but the aggregation's word count
(`removeHTMLComments` + `strings.Fields`) strips the whole closed span and
yields 0 (first conjunct). -/
theorem aggregation_word_count_strips_multiline_comments :
    StatsUI.filteredWordCount "<!--\nhello world\n-->".toList = 0
    ∧ ((splitLines "<!--\nhello world\n-->".toList).map
        fun line => if Editor.isGhostLine line then 0 else (fields line).length).sum = 4
    ∧ (∀ line ∈ splitLines "<!--\nhello world\n-->".toList,
        Editor.isGhostLine line = false) := by
  refine ⟨by decide, by decide, by decide⟩

/-- **C2 (amended)**: the *editor's* live word count and ghost extraction
are line-based exactly as the claim states — a line is excluded iff its
trimmed form starts with `<!--` and ends with `-->`, the count is the
whitespace-token count of the remaining lines, and the scenario note
yields word count 2 with ghost strings `["2024-01-01", "Prompt text"]`
(where the aggregation's count also gives 2); but the *aggregation's*
filter removes every closed `<!-- … -->` span even when it spans lines
(per the counterexample), so only unclosed openers are treated as
prose there. -/
theorem content_filter_line_rule (text : List Char) :
    Editor.countWords text
      = ((splitLines text).map
          fun line => if Editor.isGhostLine line then 0 else (fields line).length).sum
    ∧ Editor.countWords "<!-- 2024-01-01 -->\n<!-- Prompt text -->\n\nHello world".toList = 2
    ∧ StatsUI.filteredWordCount
        "<!-- 2024-01-01 -->\n<!-- Prompt text -->\n\nHello world".toList = 2
    ∧ (Editor.processGhostText
        "<!-- 2024-01-01 -->\n<!-- Prompt text -->\n\nHello world".toList).2
      = ["2024-01-01".toList, "Prompt text".toList] := by
  refine ⟨?_, by decide, by decide, by decide⟩
  have main : ∀ (lines : List (List Char)) (acc : ℕ),
      lines.foldl
          (fun acc line => if Editor.isGhostLine line then acc else acc + (fields line).length)
          acc
        = acc + (lines.map
            fun line => if Editor.isGhostLine line then 0 else (fields line).length).sum := by
    intro lines
    induction lines with
    | nil => intro acc; simp
    | cons l rest ih =>
      intro acc
      rw [List.foldl_cons]
      cases hg : Editor.isGhostLine l
      · simp only [hg, Bool.false_eq_true, if_false, List.map_cons, List.sum_cons, ih]
        omega
      · simp only [hg, if_true, List.map_cons, List.sum_cons, ih]
        omega
  simpa using main (splitLines text) 0
